/-
  Verification of the randwave~ external (src/randwave~.c).

  Shallow embedding conventions:
  * C `int` values are modeled as `ℤ`; array indices as `ℕ`.
  * C `float`/`double` values are idealized as exact reals (`ℝ`); a float
    amplitude produced from integer `rand()` data is modeled as `ℚ` (so it is
    executable) and coerced to `ℝ` where the interpolator consumes it.
  * An IEEE non-finite result (the NaN produced by the `0/0` division inside
    `trig_cardinal` at coincident node angles) is modeled as `none : Option ℝ`;
    in this program a zero denominator of `trig_cardinal` always comes with a
    zero numerator (the angles are `2π·(integer/integer)` and `π` is
    irrational), so `none` is exactly the NaN case.  NaN propagation through
    `+`, `*` and the (comparison-based) clipping is modeled by `Option.bind` /
    `Option.map` strictness.
  * The C library `rand()` is modeled by an arbitrary stream `rng : ℕ → ℕ`
    reduced mod `RAND_MAX + 1`; the stream index mirrors the order of the
    `rand()` calls in the source (shuffle first, then one call per interior
    amplitude).
  * The two `while` wraparound loops of `randwave_perform` are modeled with
    explicit fuel (`none` = the fuel was exhausted, i.e. the loop did not
    terminate within the given bound), so termination itself is a provable
    statement.
  * Host-integration code (Pd class registration, inlets, `getbytes`
    allocation bookkeeping) is outside the embedded core, as in spec §1/§6.
-/

import Mathlib

open scoped Classical

/-- RAND_MAX of the C library, 2^31 - 1 (glibc). -/
def RAND_MAX_C : ℕ := 2147483647

/-- One call of the C library `rand()`: the `k`-th value of the ambient random
stream, guaranteed to lie in `[0, RAND_MAX]`. -/
def crand (rng : ℕ → ℕ) (k : ℕ) : ℕ := rng k % (RAND_MAX_C + 1)

/-- The amplitude expression of `randwave_generate` line 157:
`((float) rand() / (float) RAND_MAX) * 2 - 1`. -/
def ampOf (r : ℕ) : ℚ := (r : ℚ) / (RAND_MAX_C : ℚ) * 2 - 1

/-- `fill` (lines 236-241): an array of size `n` with `arr[i] = i + 1`. -/
def fill (n : ℕ) : List ℤ := (List.range n).map (fun (i : ℕ) => (i : ℤ) + 1)

/-- `swap(&arr[i], &arr[j])` on a list: both reads happen before the writes
(the C `swap` goes through a temporary). -/
def listSwap (l : List ℤ) (i j : ℕ) : List ℤ :=
  (l.set i (l.getD j 0)).set j (l.getD i 0)

/-- The body of `shuffle` (lines 245-253): Fisher-Yates, `for (i = n-1; i >= 1;
i--) { j = rand() % (i+1); swap(&arr[j], &arr[i]); }`.  The first argument of
the recursion is the `rand()` call counter, the second is the loop variable
`i` (the pattern `i+1` is the current value of the C loop variable). -/
def shuffleGo (rng : ℕ → ℕ) : ℕ → ℕ → List ℤ → List ℤ
  | _, 0, l => l
  | c, i + 1, l => shuffleGo rng (c + 1) i (listSwap l (crand rng c % (i + 2)) (i + 1))

/-- `shuffle(arr, n)` with `n = arr.length`; `c` is the index of the first
`rand()` call it consumes (the loop performs `n - 1` calls). -/
def shuffle (rng : ℕ → ℕ) (c : ℕ) (l : List ℤ) : List ℤ :=
  shuffleGo rng c (l.length - 1) l

/-- `sample_amplitude_pair` (lines 26-29): a control point. -/
structure sample_amplitude_pair where
  sample : ℤ
  amplitude : ℚ
deriving DecidableEq

/-- The interior-point loop of `randwave_generate` (lines 155-158): the `k`-th
element pairs the `k`-th (sorted) random sample position with a fresh random
amplitude; `c` is the `rand()` call counter at loop entry. -/
def interiorPts (rng : ℕ → ℕ) : ℕ → List ℤ → List sample_amplitude_pair
  | _, [] => []
  | c, p :: rest => ⟨p, ampOf (crand rng c)⟩ :: interiorPts rng (c + 1) rest

/-- Diagnostics emitted through `pd_error` by `randwave_generate`. -/
inductive Diag where
  | invalidSize
  | invalidPoints
deriving DecidableEq

/-- The `t_randwave` object state (lines 32-47), restricted to the fields the
synthesis/playback core reads or writes (`obj` and `fsig` are host plumbing). -/
structure t_randwave where
  points : List sample_amplitude_pair
  num_points : ℤ
  wavetable : List (Option ℝ)
  wavetable_size : ℤ
  phase : ℤ
  generated : Bool

/-- The control-point construction of `randwave_generate` (lines 142-158):
anchors `(0,0)` and `(wavetable_size-1, 0)`; in between, the first
`num_points - 2` entries of the shuffled array `[1 .. wavetable_size-2]`,
sorted ascending (the C code `qsort`s exactly the prefix it then reads, so
sorting the taken prefix is the same reads), each paired with a random
amplitude.  The shuffle consumes `rand()` calls `0 .. n-2`; the amplitude of
interior point `i` uses call `n - 1 + (i - 1)`. -/
def randwave_points (rng : ℕ → ℕ) (ws np : ℤ) : List sample_amplitude_pair :=
  let n : ℕ := (ws - 2).toNat
  let all_samples : List ℤ := shuffle rng 0 (fill n)
  let ipos : List ℤ := List.insertionSort (fun a b => a ≤ b) (all_samples.take (np - 2).toNat)
  ⟨0, 0⟩ :: (interiorPts rng (n - 1) ipos ++ [⟨ws - 1, 0⟩])

/-- Checked division: `none` models the IEEE non-finite result of dividing by
a zero denominator (in this program the numerator is zero whenever the
denominator is, so this is the NaN `0/0`). -/
noncomputable def cdiv (a b : ℝ) : Option ℝ :=
  if b = 0 then none else some (a / b)

/-- `trig_cardinal` (lines 264-271), verbatim: there is no special case for
`x = 0` besides `N = 0`; `N % 2` is C (truncated) remainder, hence `Int.tmod`. -/
noncomputable def trig_cardinal (x : ℝ) (N : ℤ) : Option ℝ :=
  if N = 0 then some 1
  else if N.tmod 2 = 1 then
    cdiv (Real.sin ((N : ℝ) * Real.pi * x / 2)) ((N : ℝ) * Real.sin (Real.pi * x / 2))
  else
    cdiv (Real.sin ((N : ℝ) * Real.pi * x / 2)) ((N : ℝ) * Real.tan (Real.pi * x / 2))

/-- The inner summation loop of `trig_interp` (lines 275-281):
`sum += points[k].amplitude * trig_cardinal(xi - xk, num_points)`, with NaN
strictness: once any term is non-finite the running sum stays non-finite. -/
noncomputable def interpSum (ws np : ℤ) (pts : List sample_amplitude_pair) (xi : ℝ) : Option ℝ :=
  pts.foldl
    (fun sum p => sum.bind (fun s =>
      (trig_cardinal (xi - ((p.sample : ℝ) / (ws : ℝ)) * (2 * Real.pi)) np).map
        (fun t => s + (p.amplitude : ℝ) * t)))
    (some 0)

/-- The hard limiter of `trig_interp` (lines 283-287).  A NaN sum fails both
comparisons and is stored unchanged, hence `none ↦ none`. -/
noncomputable def clip : Option ℝ → Option ℝ
  | none => none
  | some s => if 1 < s then some 1 else if s < -1 then some (-1) else some s

/-- `trig_interp` (lines 273-291): every slot `i` of the wavetable receives the
clipped cardinal-basis sum at angle `xi = (i / wavetable_size) * 2π`. -/
noncomputable def trig_interp (ws : ℤ) (pts : List sample_amplitude_pair) (np : ℤ) : List (Option ℝ) :=
  (List.range ws.toNat).map
    (fun (i : ℕ) => clip (interpSum ws np pts (((i : ℝ) / (ws : ℝ)) * (2 * Real.pi))))

/-- `randwave_generate` (lines 110-172), on integer-valued message arguments
(the claims all concern integer arguments; `(int)` truncation is then the
identity).  Faithful quirks kept from the source:
* the interior-count guard (line 131) compares against the raw
  `wavetable_size` parameter, not the substituted size;
* the guarded default `num_points = DEFAULT_NUM_INTERP_POINTS + 2` (line 133)
  is a dead store: line 135 unconditionally overwrites it with
  `num_interp_points + 2`, which is what this definition assigns;
* `phase` is not touched.
Returns the updated object together with the emitted diagnostics (size check
first, then the point-count check, as in the source). -/
noncomputable def randwave_generate (x : t_randwave) (rng : ℕ → ℕ)
    (wavetable_size num_interp_points : ℤ) : t_randwave × List Diag :=
  let ws : ℤ := if wavetable_size < 0 then 2048 else wavetable_size
  let np : ℤ := num_interp_points + 2
  let pts : List sample_amplitude_pair := randwave_points rng ws np
  let diags : List Diag :=
    (if wavetable_size < 0 then [Diag.invalidSize] else []) ++
      (if num_interp_points ≤ 0 ∨ num_interp_points > wavetable_size - 2 then
        [Diag.invalidPoints] else [])
  ({ x with
      wavetable_size := ws
      wavetable := trig_interp ws pts np
      num_points := np
      points := pts
      generated := true }, diags)

/-- The object produced by `randwave_new` (lines 93-108). -/
def initState : t_randwave :=
  { points := []
    num_points := 0
    wavetable := []
    wavetable_size := 2048
    phase := 0
    generated := false }

/-- A concrete random stream (used for concrete evaluations). -/
def rng0 : ℕ → ℕ := fun _ => 0

/-- Reading `x->wavetable[i]` in `randwave_perform`: defined only for indices
inside the table (an out-of-range C read is undefined; modeled as `none`). -/
def wtRead (wt : List (Option ℝ)) (i : ℤ) : Option ℝ :=
  if 0 ≤ i ∧ i < (wt.length : ℤ) then wt.getD i.toNat none else none

/-- The loop `while (i >= x->wavetable_size) i -= x->wavetable_size;`
(lines 207-208), with fuel. -/
def subLoop (ws : ℤ) : ℤ → ℕ → Option ℤ
  | i, 0 => if ws ≤ i then none else some i
  | i, f + 1 => if ws ≤ i then subLoop ws (i - ws) f else some i

/-- The loop `while (i < 0) i += x->wavetable_size;` (lines 209-210), with
fuel. -/
def addLoop (ws : ℤ) : ℤ → ℕ → Option ℤ
  | i, 0 => if i < 0 then none else some i
  | i, f + 1 => if i < 0 then addLoop ws (i + ws) f else some i

/-- The whole out-of-bounds adjustment of `randwave_perform` (lines 206-210):
subtracting loop first, then the adding loop. -/
def wrapPhase (ws i : ℤ) (fuel : ℕ) : Option ℤ :=
  (subLoop ws i fuel).bind (fun j => addLoop ws j fuel)

/-- The sample loop `while (n--)` of `randwave_perform` (lines 195-211): emit
`wavetable[i]`, advance `i` by the (fixed) increment, wrap.  `none` means some
wraparound loop exhausted its fuel. -/
def performLoop (wt : List (Option ℝ)) (ws inc : ℤ) : ℕ → ℤ → ℕ → Option (List (Option ℝ) × ℤ)
  | 0, i, _ => some ([], i)
  | n + 1, i, fuel =>
      (wrapPhase ws (i + inc) fuel).bind (fun i2 =>
        (performLoop wt ws inc n i2 fuel).map (fun r => (wtRead wt i :: r.1, r.2)))

/-- `randwave_perform` (lines 184-217): reads the saved phase, computes
`base_sample_increment = ceil(wavetable_size / n)`, multiplies it by the
constant `1` (the frequency-inlet read is commented out in the source, line
203), runs the sample loop, and stores the final index back into `phase`.
The frequency buffer argument is accepted and never read, as in the source. -/
def randwave_perform (x : t_randwave) (frequency : List ℚ) (n : ℕ) (fuel : ℕ) :
    Option (List (Option ℝ) × t_randwave) :=
  let base_sample_increment : ℤ := Int.ceil ((x.wavetable_size : ℚ) / (n : ℚ))
  let sample_increment : ℤ := 1 * base_sample_increment
  (performLoop x.wavetable x.wavetable_size sample_increment n x.phase fuel).map
    (fun r => (r.1, { x with phase := r.2 }))

/-- Reference phase sequence: `phaseSeq ws inc i0 k` is the value of the phase
cursor after `k` advance-and-wrap steps from `i0` (wrapping is mathematical
`emod` into `[0, ws)`; the theorems below prove the source loops compute it). -/
def phaseSeq (ws inc i0 : ℤ) : ℕ → ℤ
  | 0 => i0
  | k + 1 => (phaseSeq ws inc i0 k + inc) % ws

/-- An object state as left by earlier calls: table of size 2048 and a phase
cursor at 100 (any phase in `[0, 2048)` is reachable by `perform` blocks). -/
def stStale : t_randwave :=
  { points := []
    num_points := 0
    wavetable := []
    wavetable_size := 2048
    phase := 100
    generated := true }

/-- Moving the `m`-th element of a list to the front while writing `x` in its
place is a permutation of putting `x` in front. -/
lemma getD_cons_perm : ∀ (t : List ℤ) (m : ℕ) (x : ℤ), m < t.length →
    List.Perm (t.getD m 0 :: t.set m x) (x :: t)
  | [], m, _, h => absurd h (by simp)
  | y :: s, 0, x, _ => by
      simp only [List.getD_cons_zero, List.set_cons_zero]
      exact List.Perm.swap x y s
  | y :: s, m + 1, x, h => by
      have hm : m < s.length := by simpa using h
      simp only [List.getD_cons_succ, List.set_cons_succ]
      exact ((List.Perm.swap y (s.getD m 0) (s.set m x)).trans
        ((getD_cons_perm s m x hm).cons y)).trans (List.Perm.swap x y s)

/-- The C `swap` of two in-bounds entries is a permutation. -/
lemma listSwap_perm : ∀ (l : List ℤ) (i j : ℕ), i < l.length → j < l.length →
    List.Perm (listSwap l i j) l
  | [], _, _, hi, _ => absurd hi (by simp)
  | x :: t, 0, 0, _, _ => by
      simp only [listSwap, List.getD_cons_zero, List.set_cons_zero]
      exact List.Perm.refl _
  | x :: t, 0, j + 1, _, hj => by
      have hj2 : j < t.length := by simpa using hj
      simp only [listSwap, List.getD_cons_zero, List.getD_cons_succ, List.set_cons_zero,
        List.set_cons_succ]
      exact getD_cons_perm t j x hj2
  | x :: t, i + 1, 0, hi, _ => by
      have hi2 : i < t.length := by simpa using hi
      simp only [listSwap, List.getD_cons_zero, List.getD_cons_succ, List.set_cons_zero,
        List.set_cons_succ]
      exact getD_cons_perm t i x hi2
  | x :: t, i + 1, j + 1, hi, hj => by
      have hi2 : i < t.length := by simpa using hi
      have hj2 : j < t.length := by simpa using hj
      simp only [listSwap, List.getD_cons_succ, List.set_cons_succ]
      exact (listSwap_perm t i j hi2 hj2).cons x

/-- The Fisher-Yates loop permutes the array. -/
lemma shuffleGo_perm (rng : ℕ → ℕ) : ∀ (i c : ℕ) (l : List ℤ), i < l.length →
    List.Perm (shuffleGo rng c i l) l
  | 0, _, l, _ => List.Perm.refl l
  | i + 1, c, l, h => by
      have hj : crand rng c % (i + 2) < l.length := by
        have : crand rng c % (i + 2) < i + 2 := Nat.mod_lt _ (by omega)
        omega
      have hlen : (listSwap l (crand rng c % (i + 2)) (i + 1)).length = l.length := by
        simp [listSwap]
      have rec := shuffleGo_perm rng i (c + 1) (listSwap l (crand rng c % (i + 2)) (i + 1))
        (by omega)
      exact (rec.trans (listSwap_perm l (crand rng c % (i + 2)) (i + 1) hj h))

/-- `shuffle` permutes the array (for any random stream). -/
lemma shuffle_perm (rng : ℕ → ℕ) (c : ℕ) (l : List ℤ) : List.Perm (shuffle rng c l) l := by
  cases l with
  | nil => exact List.Perm.refl _
  | cons a t => exact shuffleGo_perm rng ((a :: t).length - 1) c (a :: t) (by simp)

/-- `fill n` has no duplicates. -/
lemma fill_nodup (n : ℕ) : (fill n).Nodup := by
  unfold fill
  refine List.Nodup.map ?_ (List.nodup_range n)
  intro a b hab
  have h2 : (a : ℤ) + 1 = (b : ℤ) + 1 := hab
  omega

/-- Elements of `fill n` lie in `[1, n]`. -/
lemma mem_fill {n : ℕ} {a : ℤ} (h : a ∈ fill n) : 1 ≤ a ∧ a ≤ (n : ℤ) := by
  unfold fill at h
  simp only [List.mem_map, List.mem_range] at h
  obtain ⟨i, hi, rfl⟩ := h
  omega

lemma fill_length (n : ℕ) : (fill n).length = n := by
  unfold fill
  simp

/-- The interior-point loop keeps the position list. -/
lemma interiorPts_map_sample (rng : ℕ → ℕ) : ∀ (c : ℕ) (l : List ℤ),
    (interiorPts rng c l).map sample_amplitude_pair.sample = l
  | _, [] => rfl
  | c, p :: rest => by
      simp [interiorPts, interiorPts_map_sample rng (c + 1) rest]

lemma interiorPts_length (rng : ℕ → ℕ) : ∀ (c : ℕ) (l : List ℤ),
    (interiorPts rng c l).length = l.length
  | _, [] => rfl
  | c, p :: rest => by
      simp [interiorPts, interiorPts_length rng (c + 1) rest]

/-- One `rand()` value is at most `RAND_MAX`. -/
lemma crand_le (rng : ℕ → ℕ) (k : ℕ) : crand rng k ≤ RAND_MAX_C := by
  unfold crand RAND_MAX_C
  omega

/-- `((float) rand() / RAND_MAX) * 2 - 1` lies in `[-1, 1]`. -/
lemma ampOf_bounds {r : ℕ} (h : r ≤ RAND_MAX_C) : -1 ≤ ampOf r ∧ ampOf r ≤ 1 := by
  unfold ampOf RAND_MAX_C at *
  have hpos : (0 : ℚ) < 2147483647 := by norm_num
  have hcast : ((2147483647 : ℕ) : ℚ) = 2147483647 := by norm_num
  rw [hcast]
  constructor
  · have h0 : (0 : ℚ) ≤ (r : ℚ) / 2147483647 := by positivity
    linarith
  · have h1 : (r : ℚ) / 2147483647 ≤ 1 := by
      rw [div_le_one hpos]
      exact_mod_cast h
    linarith

/-- Every amplitude produced by the interior-point loop is in `[-1, 1]`. -/
lemma interiorPts_amp (rng : ℕ → ℕ) : ∀ (c : ℕ) (l : List ℤ) (q : sample_amplitude_pair),
    q ∈ interiorPts rng c l → -1 ≤ q.amplitude ∧ q.amplitude ≤ 1
  | _, [], q, hq => absurd hq (by simp [interiorPts])
  | c, p :: rest, q, hq => by
      rcases List.mem_cons.mp hq with h | h
      · subst h
        exact ampOf_bounds (crand_le rng c)
      · exact interiorPts_amp rng (c + 1) rest q h

/-- Sorted (≤) plus no duplicates gives strictly increasing. -/
lemma pairwise_lt_of_le_ne {l : List ℤ} (h1 : l.Pairwise (· ≤ ·)) (h2 : l.Nodup) :
    l.Pairwise (· < ·) := by
  induction l with
  | nil => exact List.Pairwise.nil
  | cons a t ih =>
      rcases List.pairwise_cons.mp h1 with ⟨ha1, ht1⟩
      rcases List.pairwise_cons.mp h2 with ⟨ha2, ht2⟩
      exact List.pairwise_cons.mpr
        ⟨fun b hb => lt_of_le_of_ne (ha1 b hb) (ha2 b hb), ih ht1 ht2⟩

/-- Full characterization of the control-point set built by
`randwave_generate` for valid parameters, phrased on `randwave_points`. -/
lemma randwave_points_spec (rng : ℕ → ℕ) (ws ic : ℤ)
    (h4 : 4 ≤ ws) (hic1 : 1 ≤ ic) (hic2 : ic ≤ ws - 2) :
    ((randwave_points rng ws (ic + 2)).length : ℤ) = ic + 2 ∧
    (randwave_points rng ws (ic + 2)).head? = some ⟨0, 0⟩ ∧
    (randwave_points rng ws (ic + 2)).getLast? = some ⟨ws - 1, 0⟩ ∧
    ((randwave_points rng ws (ic + 2)).map sample_amplitude_pair.sample).Pairwise (· < ·) ∧
    (∀ q ∈ ((randwave_points rng ws (ic + 2)).drop 1).dropLast,
      1 ≤ q.sample ∧ q.sample ≤ ws - 2) ∧
    (∀ q ∈ randwave_points rng ws (ic + 2), -1 ≤ q.amplitude ∧ q.amplitude ≤ 1) := by
  have hic : ic + 2 - 2 = ic := by ring
  have key : randwave_points rng ws (ic + 2) =
      ⟨0, 0⟩ :: (interiorPts rng ((ws - 2).toNat - 1)
        (List.insertionSort (fun a b => a ≤ b)
          ((shuffle rng 0 (fill (ws - 2).toNat)).take ic.toNat)) ++ [⟨ws - 1, 0⟩]) := by
    simp only [randwave_points]
    rw [hic]
  have hperm1 := shuffle_perm rng 0 (fill (ws - 2).toNat)
  have hlen_sh : (shuffle rng 0 (fill (ws - 2).toNat)).length = (ws - 2).toNat := by
    rw [hperm1.length_eq, fill_length]
  have hnodup_sh : (shuffle rng 0 (fill (ws - 2).toNat)).Nodup :=
    hperm1.nodup_iff.mpr (fill_nodup _)
  have hpermI := List.perm_insertionSort (fun a b => a ≤ b)
    ((shuffle rng 0 (fill (ws - 2).toNat)).take ic.toNat)
  have hmemI : ∀ a ∈ List.insertionSort (fun a b => a ≤ b)
      ((shuffle rng 0 (fill (ws - 2).toNat)).take ic.toNat), 1 ≤ a ∧ a ≤ ws - 2 := by
    intro a ha
    have h3 : a ∈ (shuffle rng 0 (fill (ws - 2).toNat)).take ic.toNat := hpermI.mem_iff.mp ha
    have h4m : a ∈ shuffle rng 0 (fill (ws - 2).toNat) := List.take_subset _ _ h3
    have h5 : a ∈ fill (ws - 2).toNat := hperm1.mem_iff.mp h4m
    have h6 := mem_fill h5
    omega
  have hnodupI : (List.insertionSort (fun a b => a ≤ b)
      ((shuffle rng 0 (fill (ws - 2).toNat)).take ic.toNat)).Nodup :=
    hpermI.nodup_iff.mpr (List.Nodup.sublist (List.take_sublist _ _) hnodup_sh)
  have hsortI : (List.insertionSort (fun a b => a ≤ b)
      ((shuffle rng 0 (fill (ws - 2).toNat)).take ic.toNat)).Sorted (fun a b => a ≤ b) :=
    List.sorted_insertionSort _ _
  have hpwI : (List.insertionSort (fun a b => a ≤ b)
      ((shuffle rng 0 (fill (ws - 2).toNat)).take ic.toNat)).Pairwise (· < ·) :=
    pairwise_lt_of_le_ne hsortI hnodupI
  have hlenI : (List.insertionSort (fun a b => a ≤ b)
      ((shuffle rng 0 (fill (ws - 2).toNat)).take ic.toNat)).length = ic.toNat := by
    rw [hpermI.length_eq, List.length_take, hlen_sh]
    omega
  refine ⟨?_, ?_, ?_, ?_, ?_, ?_⟩
  · rw [key]
    simp only [List.length_cons, List.length_append, interiorPts_length, hlenI,
      List.length_singleton, List.length_nil]
    omega
  · rw [key]
    rfl
  · rw [key, ← List.cons_append]
    exact List.getLast?_concat _
  · rw [key]
    simp only [List.map_cons, List.map_append, interiorPts_map_sample, List.map_singleton]
    refine List.pairwise_cons.mpr ⟨?_, ?_⟩
    · intro b hb
      rcases List.mem_append.mp hb with h | h
      · have := hmemI b h
        omega
      · have hb2 : b = ws - 1 := by simpa using h
        omega
    · refine List.pairwise_append.mpr ⟨hpwI, ?_, ?_⟩
      · simp
      · intro a haa b hbb
        have hb2 : b = ws - 1 := by simpa using hbb
        have := hmemI a haa
        omega
  · rw [key]
    intro q hq
    have hq2 : q ∈ interiorPts rng ((ws - 2).toNat - 1)
        (List.insertionSort (fun a b => a ≤ b)
          ((shuffle rng 0 (fill (ws - 2).toNat)).take ic.toNat)) := by
      have hdrop : ((⟨0, 0⟩ :: (interiorPts rng ((ws - 2).toNat - 1)
          (List.insertionSort (fun a b => a ≤ b)
            ((shuffle rng 0 (fill (ws - 2).toNat)).take ic.toNat)) ++
          [(⟨ws - 1, 0⟩ : sample_amplitude_pair)]) : List sample_amplitude_pair).drop 1).dropLast =
          interiorPts rng ((ws - 2).toNat - 1)
            (List.insertionSort (fun a b => a ≤ b)
              ((shuffle rng 0 (fill (ws - 2).toNat)).take ic.toNat)) := by
        rw [List.drop_one, List.tail_cons, List.dropLast_concat]
      rw [hdrop] at hq
      exact hq
    have hs : q.sample ∈ List.insertionSort (fun a b => a ≤ b)
        ((shuffle rng 0 (fill (ws - 2).toNat)).take ic.toNat) := by
      rw [← interiorPts_map_sample rng ((ws - 2).toNat - 1)
        (List.insertionSort (fun a b => a ≤ b)
          ((shuffle rng 0 (fill (ws - 2).toNat)).take ic.toNat))]
      exact List.mem_map_of_mem _ hq2
    exact hmemI _ hs
  · rw [key]
    intro q hq
    rcases List.mem_cons.mp hq with h | h
    · subst h
      constructor <;> norm_num
    · rcases List.mem_append.mp h with h2 | h2
      · exact interiorPts_amp rng _ _ q h2
      · have hq2 : q = ⟨ws - 1, 0⟩ := by simpa using h2
        subst hq2
        constructor <;> norm_num

/-- Claim C5: for valid parameters (`tableSize ≥ 4`, `1 ≤ interiorCount ≤
tableSize - 2`) the generated ControlPointSet has exactly `interiorCount + 2`
points, anchors `(0,0)` and `(tableSize-1, 0)`, strictly increasing (hence
distinct) positions, interior positions inside `[1, tableSize-2]`, and all
amplitudes in `[-1, 1]` — for every prior object state and random stream. -/
theorem generate_control_point_set_spec (x : t_randwave) (rng : ℕ → ℕ) (ts ic : ℤ)
    (hts : 4 ≤ ts) (hic1 : 1 ≤ ic) (hic2 : ic ≤ ts - 2) :
    (((randwave_generate x rng ts ic).1.points.length : ℤ) = ic + 2) ∧
    (randwave_generate x rng ts ic).1.points.head? = some ⟨0, 0⟩ ∧
    (randwave_generate x rng ts ic).1.points.getLast? = some ⟨ts - 1, 0⟩ ∧
    ((randwave_generate x rng ts ic).1.points.map sample_amplitude_pair.sample).Pairwise (· < ·) ∧
    (∀ q ∈ ((randwave_generate x rng ts ic).1.points.drop 1).dropLast,
      1 ≤ q.sample ∧ q.sample ≤ ts - 2) ∧
    (∀ q ∈ (randwave_generate x rng ts ic).1.points, -1 ≤ q.amplitude ∧ q.amplitude ≤ 1) := by
  have hpts : (randwave_generate x rng ts ic).1.points = randwave_points rng ts (ic + 2) := by
    show randwave_points rng (if ts < 0 then 2048 else ts) (ic + 2) = _
    rw [if_neg (by omega : ¬ ts < 0)]
  rw [hpts]
  exact randwave_points_spec rng ts ic hts hic1 hic2

/-- Witness for C5 at the concrete call `generate(8, 2)` (all-zero stream). -/
theorem generate_control_point_set_spec_witness :
    ((4 : ℤ) ≤ 8 ∧ (1 : ℤ) ≤ 2 ∧ (2 : ℤ) ≤ 8 - 2) ∧
    ((((randwave_generate initState rng0 8 2).1.points.length : ℤ) = 2 + 2) ∧
    (randwave_generate initState rng0 8 2).1.points.head? = some ⟨0, 0⟩ ∧
    (randwave_generate initState rng0 8 2).1.points.getLast? = some ⟨8 - 1, 0⟩ ∧
    ((randwave_generate initState rng0 8 2).1.points.map
      sample_amplitude_pair.sample).Pairwise (· < ·) ∧
    (∀ q ∈ ((randwave_generate initState rng0 8 2).1.points.drop 1).dropLast,
      1 ≤ q.sample ∧ q.sample ≤ 8 - 2) ∧
    (∀ q ∈ (randwave_generate initState rng0 8 2).1.points,
      -1 ≤ q.amplitude ∧ q.amplitude ≤ 1)) :=
  ⟨⟨by decide, by decide, by decide⟩,
    generate_control_point_set_spec initState rng0 8 2 (by decide) (by decide) (by decide)⟩

lemma cdiv_zero (a : ℝ) : cdiv a 0 = none := by
  simp [cdiv]

/-- The missing removable-singularity case: at `x = 0` and `N ≠ 0` the source
`trig_cardinal` computes `sin 0 / (N * sin 0)` (resp. `tan`), i.e. `0 / 0`. -/
lemma trig_cardinal_zero {N : ℤ} (h : N ≠ 0) : trig_cardinal 0 N = none := by
  unfold trig_cardinal
  rw [if_neg h]
  have harg : Real.pi * 0 / 2 = 0 := by ring
  by_cases h2 : N.tmod 2 = 1
  · rw [if_pos h2, harg, Real.sin_zero]
    simp only [mul_zero]
    rw [cdiv_zero]
  · rw [if_neg h2, harg, Real.tan_zero]
    simp only [mul_zero]
    rw [cdiv_zero]

/-- Once the running sum is NaN it stays NaN through the rest of the points. -/
lemma interpSum_foldl_none (ws np : ℤ) (xi : ℝ) :
    ∀ l : List sample_amplitude_pair,
      l.foldl
        (fun sum p => sum.bind (fun s =>
          (trig_cardinal (xi - ((p.sample : ℝ) / (ws : ℝ)) * (2 * Real.pi)) np).map
            (fun t => s + (p.amplitude : ℝ) * t)))
        none = none
  | [] => rfl
  | p :: rest => by
      rw [List.foldl_cons]
      exact interpSum_foldl_none ws np xi rest

/-- At output angle `0` a point set headed by the anchor `(0, 0)` makes the
whole sum NaN: the anchor's own basis term is `trig_cardinal 0 npts = 0/0`. -/
lemma interpSum_head_zero (ws np : ℤ) (hnp : np ≠ 0) (rest : List sample_amplitude_pair) :
    interpSum ws np (⟨0, 0⟩ :: rest) 0 = none := by
  unfold interpSum
  simp only [List.foldl_cons, Int.cast_zero, zero_div, zero_mul, sub_zero]
  rw [trig_cardinal_zero hnp]
  simp only [Option.map_none', Option.some_bind]
  exact interpSum_foldl_none ws np 0 rest

lemma getD_map_range {α : Type} (f : ℕ → α) (n : ℕ) (d : α) (h : 0 < n) :
    ((List.range n).map f).getD 0 d = f 0 := by
  obtain ⟨m, rfl⟩ := Nat.exists_eq_succ_of_ne_zero (Nat.pos_iff_ne_zero.mp h)
  rw [List.range_succ_eq_map]
  rfl

/-- The state after `generate(8, 2)` on the all-zero stream carries the table
`trig_interp 8 (randwave_points rng0 8 4) 4`. -/
lemma genEx_wavetable_eq :
    (randwave_generate initState rng0 8 2).1.wavetable =
      trig_interp 8 (randwave_points rng0 8 4) 4 := by
  norm_num [randwave_generate]

/-- Slot `0` of that table (the anchor control point's own position) is NaN. -/
lemma interp_zero_none :
    clip (interpSum 8 4 (randwave_points rng0 8 4)
      (((0 : ℕ) : ℝ) / ((8 : ℤ) : ℝ) * (2 * Real.pi))) = none := by
  have h0 : ((0 : ℕ) : ℝ) / ((8 : ℤ) : ℝ) * (2 * Real.pi) = 0 := by norm_num
  rw [h0]
  simp only [randwave_points]
  rw [interpSum_head_zero 8 4 (by norm_num)]
  rfl

/-- Claim C1 (code bug): the wavetable does NOT pass through the control
points.  Concretely, after `generate(8, 2)` (all-zero stream) the pair
`(0, 0)` is a control point of the produced set, yet the wavetable's value at
index 0 is the NaN `none` — the `0/0` of `trig_cardinal` at the point's own
angle — not the amplitude `0` (nor any real number at all). -/
theorem interp_control_point_value_nan :
    (⟨0, 0⟩ : sample_amplitude_pair) ∈ (randwave_generate initState rng0 8 2).1.points ∧
    (randwave_generate initState rng0 8 2).1.wavetable.getD 0 (some 1) = none := by
  constructor
  · decide
  · rw [genEx_wavetable_eq]
    unfold trig_interp
    rw [getD_map_range _ _ _ (by norm_num)]
    exact interp_zero_none

/-- Claim C2 (code bug): `trig_cardinal(0, N)` is not `1` for `N ≥ 1`; the
source divides `0` by `0` there (odd branch `N = 1` and even branch `N = 4`
both shown), producing NaN. -/
theorem trig_cardinal_zero_div_zero :
    trig_cardinal 0 1 = none ∧ trig_cardinal 0 4 = none ∧ trig_cardinal 0 1 ≠ some 1 := by
  refine ⟨trig_cardinal_zero (by norm_num), trig_cardinal_zero (by norm_num), ?_⟩
  rw [trig_cardinal_zero (by norm_num : (1 : ℤ) ≠ 0)]
  simp

/-- Claim C3 (code bug): a generated wavetable contains a sample that is not a
real number in `[-1, 1]` at all — the NaN (`none`) stored at a control point's
index slips through the hard limiter, whose two comparisons are false for NaN. -/
theorem wavetable_contains_nan :
    none ∈ (randwave_generate initState rng0 8 2).1.wavetable := by
  rw [genEx_wavetable_eq]
  unfold trig_interp
  refine List.mem_map.mpr ⟨0, ?_, ?_⟩
  · simp
  · exact interp_zero_none

/-- Claim C4 (code bug): on an invalid interior-point count the default is NOT
substituted.  `generate(10, 0)` emits the diagnostic but produces `num_points
= 0 + 2 = 2` (a 2-point set), not the default `4 + 2 = 6`: the guarded default
assignment is unconditionally overwritten.  For a valid count (`generate(10,
3)`) no diagnostic is emitted and `num_points = 5`. -/
theorem generate_invalid_point_count_not_defaulted :
    (randwave_generate initState rng0 10 0).1.num_points = 2 ∧
    (randwave_generate initState rng0 10 0).1.points.length = 2 ∧
    (randwave_generate initState rng0 10 0).2 = [Diag.invalidPoints] ∧
    (randwave_generate initState rng0 10 3).1.num_points = 5 ∧
    (randwave_generate initState rng0 10 3).2 = [] :=
  ⟨by decide, by decide, by decide, by decide, by decide⟩

/-- Claim C8: a negative requested table size is replaced by the default 2048
(with a diagnostic), and the produced wavetable has exactly 2048 samples,
for any prior state, stream and interior-count argument. -/
theorem generate_negative_size_default (x : t_randwave) (rng : ℕ → ℕ) (ts ic : ℤ)
    (h : ts < 0) :
    (randwave_generate x rng ts ic).1.wavetable_size = 2048 ∧
    (randwave_generate x rng ts ic).1.wavetable.length = 2048 ∧
    Diag.invalidSize ∈ (randwave_generate x rng ts ic).2 := by
  refine ⟨?_, ?_, ?_⟩
  · show (if ts < 0 then (2048 : ℤ) else ts) = 2048
    rw [if_pos h]
  · show (trig_interp (if ts < 0 then 2048 else ts)
        (randwave_points rng (if ts < 0 then 2048 else ts) (ic + 2)) (ic + 2)).length = 2048
    rw [if_pos h]
    unfold trig_interp
    rw [List.length_map, List.length_range]
    rfl
  · show Diag.invalidSize ∈ ((if ts < 0 then [Diag.invalidSize] else []) ++
      (if ic ≤ 0 ∨ ic > ts - 2 then [Diag.invalidPoints] else []))
    rw [if_pos h]
    simp

/-- Witness for C8 at the spec's concrete call `generate(-5, 4)`. -/
theorem generate_negative_size_default_witness :
    ((-5 : ℤ) < 0) ∧
    ((randwave_generate initState rng0 (-5) 4).1.wavetable_size = 2048 ∧
     (randwave_generate initState rng0 (-5) 4).1.wavetable.length = 2048 ∧
     Diag.invalidSize ∈ (randwave_generate initState rng0 (-5) 4).2) :=
  ⟨by decide, generate_negative_size_default initState rng0 (-5) 4 (by decide)⟩

/-- Claim C9 (code bug): `randwave_generate` never touches the saved `phase`,
so the invariant `0 ≤ phase < wavetable_size` is NOT re-established on
regeneration: from a state with `phase = 100` (table size 2048), `generate(50,
4)` leaves `phase = 100`, which is not below the new size 50. -/
theorem generate_phase_not_clamped :
    (∀ (x : t_randwave) (rng : ℕ → ℕ) (ts ic : ℤ),
      (randwave_generate x rng ts ic).1.phase = x.phase) ∧
    (randwave_generate stStale rng0 50 4).1.phase = 100 ∧
    ¬ ((randwave_generate stStale rng0 50 4).1.phase <
        (randwave_generate stStale rng0 50 4).1.wavetable_size) := by
  refine ⟨fun x rng ts ic => rfl, rfl, by decide⟩

/-- If the index is already below the table size the subtracting loop exits at
once, with any fuel. -/
lemma subLoop_of_lt {ws i : ℤ} (h : i < ws) : ∀ f, subLoop ws i f = some i
  | 0 => by simp [subLoop, not_le.mpr h]
  | f + 1 => by simp [subLoop, not_le.mpr h]

/-- With enough fuel the subtracting loop computes `i % ws` on nonnegative
input (each pass strictly decreases `i` by `ws ≥ 1`). -/
lemma subLoop_nonneg_spec (ws : ℤ) (hws : 1 ≤ ws) :
    ∀ (f : ℕ) (i : ℤ), 0 ≤ i → i < ws * ((f : ℤ) + 1) → subLoop ws i f = some (i % ws)
  | 0, i, h0, hlt => by
      have hi : i < ws := by
        have h1 : ws * ((0 : ℕ) + 1 : ℤ) = ws := by norm_num
        rw [h1] at hlt
        exact hlt
      rw [subLoop_of_lt hi, Int.emod_eq_of_lt h0 hi]
  | f + 1, i, h0, hlt => by
      rcases lt_or_le i ws with hi | hi
      · rw [subLoop_of_lt hi, Int.emod_eq_of_lt h0 hi]
      · have hstep : subLoop ws i (f + 1) = subLoop ws (i - ws) f := by
          simp [subLoop, hi]
        have hlt2 : i - ws < ws * ((f : ℤ) + 1) := by
          have hexp : ws * (((f : ℕ) + 1 : ℕ) + 1 : ℤ) = ws * ((f : ℤ) + 1) + ws := by
            push_cast
            ring
          rw [hexp] at hlt
          omega
        rw [hstep, subLoop_nonneg_spec ws hws f (i - ws) (by omega) hlt2]
        congr 1
        simp

/-- The adding loop is the identity on nonnegative input, with any fuel. -/
lemma addLoop_of_nonneg {ws i : ℤ} (h : 0 ≤ i) : ∀ f, addLoop ws i f = some i
  | 0 => by simp [addLoop, not_lt.mpr h]
  | f + 1 => by simp [addLoop, not_lt.mpr h]

/-- With enough fuel the adding loop computes `i % ws` for `i < ws` (each pass
strictly increases `i` by `ws ≥ 1`). -/
lemma addLoop_neg_spec (ws : ℤ) (hws : 1 ≤ ws) :
    ∀ (f : ℕ) (i : ℤ), i < ws → 0 ≤ i + ws * (f : ℤ) → addLoop ws i f = some (i % ws)
  | 0, i, hi, h0 => by
      have h1 : 0 ≤ i := by simpa using h0
      rw [addLoop_of_nonneg h1, Int.emod_eq_of_lt h1 hi]
  | f + 1, i, hi, h0 => by
      rcases lt_or_le i 0 with hneg | hpos
      · have hstep : addLoop ws i (f + 1) = addLoop ws (i + ws) f := by
          simp [addLoop, hneg]
        have h2 : 0 ≤ (i + ws) + ws * (f : ℤ) := by
          have hexp : i + ws * (((f : ℕ) + 1 : ℕ) : ℤ) = (i + ws) + ws * (f : ℤ) := by
            push_cast
            ring
          rw [hexp] at h0
          exact h0
        rw [hstep, addLoop_neg_spec ws hws f (i + ws) (by omega) h2]
        congr 1
        simp
      · rw [addLoop_of_nonneg hpos, Int.emod_eq_of_lt hpos hi]

/-- Fuel monotonicity of the subtracting loop. -/
lemma subLoop_mono (ws : ℤ) : ∀ (f g : ℕ) (i r : ℤ), f ≤ g →
    subLoop ws i f = some r → subLoop ws i g = some r
  | 0, g, i, r, _, h => by
      rcases lt_or_le i ws with hc | hc
      · have h2 : i = r := by
          have := (subLoop_of_lt hc 0).symm.trans h
          exact Option.some_inj.mp this
        rw [subLoop_of_lt hc g, h2]
      · simp [subLoop, hc] at h
  | f + 1, g, i, r, hfg, h => by
      rcases lt_or_le i ws with hc | hc
      · have h2 : i = r := by
          have := (subLoop_of_lt hc (f + 1)).symm.trans h
          exact Option.some_inj.mp this
        rw [subLoop_of_lt hc g, h2]
      · obtain ⟨g2, rfl⟩ : ∃ g2, g = g2 + 1 := ⟨g - 1, by omega⟩
        have hstep : subLoop ws i (f + 1) = subLoop ws (i - ws) f := by
          simp [subLoop, hc]
        have hstep2 : subLoop ws i (g2 + 1) = subLoop ws (i - ws) g2 := by
          simp [subLoop, hc]
        rw [hstep] at h
        rw [hstep2]
        exact subLoop_mono ws f g2 (i - ws) r (by omega) h

/-- Fuel monotonicity of the adding loop. -/
lemma addLoop_mono (ws : ℤ) : ∀ (f g : ℕ) (i r : ℤ), f ≤ g →
    addLoop ws i f = some r → addLoop ws i g = some r
  | 0, g, i, r, _, h => by
      rcases lt_or_le i 0 with hc | hc
      · simp [addLoop, hc] at h
      · have h2 : i = r := by
          have := (addLoop_of_nonneg hc 0).symm.trans h
          exact Option.some_inj.mp this
        rw [addLoop_of_nonneg hc g, h2]
  | f + 1, g, i, r, hfg, h => by
      rcases lt_or_le i 0 with hc | hc
      · obtain ⟨g2, rfl⟩ : ∃ g2, g = g2 + 1 := ⟨g - 1, by omega⟩
        have hstep : addLoop ws i (f + 1) = addLoop ws (i + ws) f := by
          simp [addLoop, hc]
        have hstep2 : addLoop ws i (g2 + 1) = addLoop ws (i + ws) g2 := by
          simp [addLoop, hc]
        rw [hstep] at h
        rw [hstep2]
        exact addLoop_mono ws f g2 (i + ws) r (by omega) h
      · have h2 : i = r := by
          have := (addLoop_of_nonneg hc (f + 1)).symm.trans h
          exact Option.some_inj.mp this
        rw [addLoop_of_nonneg hc g, h2]

/-- The complete wraparound adjustment computes mathematical `emod`: there is
a fuel bound past which it returns `i % ws ∈ [0, ws)`. -/
lemma wrapPhase_spec (ws : ℤ) (hws : 1 ≤ ws) (i : ℤ) :
    ∃ f, ∀ g, f ≤ g → wrapPhase ws i g = some (i % ws) := by
  rcases le_or_lt 0 i with hpos | hneg
  · refine ⟨i.toNat, fun g hg => ?_⟩
    have hbound : i < ws * ((g : ℤ) + 1) := by
      have h1 : (g : ℤ) + 1 ≤ ws * ((g : ℤ) + 1) :=
        le_mul_of_one_le_left (by omega) hws
      omega
    unfold wrapPhase
    rw [subLoop_nonneg_spec ws hws g i hpos hbound]
    simp only [Option.some_bind]
    exact addLoop_of_nonneg (Int.emod_nonneg i (by omega)) g
  · refine ⟨(-i).toNat, fun g hg => ?_⟩
    have hlt : i < ws := by omega
    unfold wrapPhase
    rw [subLoop_of_lt hlt g]
    simp only [Option.some_bind]
    have hge : 0 ≤ i + ws * (g : ℤ) := by
      have h1 : (g : ℤ) ≤ ws * (g : ℤ) := le_mul_of_one_le_left (by omega) hws
      omega
    exact addLoop_neg_spec ws hws g i hlt hge

/-- Advancing the start phase by one wrapped step shifts the reference phase
sequence by one. -/
lemma phaseSeq_shift (ws inc i : ℤ) : ∀ k : ℕ,
    phaseSeq ws inc ((i + inc) % ws) k = phaseSeq ws inc i (k + 1)
  | 0 => rfl
  | k + 1 => by
      show (phaseSeq ws inc ((i + inc) % ws) k + inc) % ws =
        (phaseSeq ws inc i (k + 1) + inc) % ws
      rw [phaseSeq_shift ws inc i k]

/-- After the first advance every phase value lies in `[0, ws)`. -/
lemma phaseSeq_bounds (ws inc i : ℤ) (hws : 1 ≤ ws) (k : ℕ) :
    0 ≤ phaseSeq ws inc i (k + 1) ∧ phaseSeq ws inc i (k + 1) < ws := by
  show 0 ≤ (phaseSeq ws inc i k + inc) % ws ∧ (phaseSeq ws inc i k + inc) % ws < ws
  exact ⟨Int.emod_nonneg _ (by omega), Int.emod_lt_of_pos _ (by omega)⟩

/-- The sample loop, with enough fuel, emits `wavetable[phase_k]` for
`k = 0 .. n-1` and finishes at `phase_n`, where `phase` advances by `inc`
with emod wraparound each sample. -/
lemma performLoop_spec (wt : List (Option ℝ)) (ws inc : ℤ) (hws : 1 ≤ ws) :
    ∀ (n : ℕ) (i : ℤ), ∃ f, ∀ g, f ≤ g →
      performLoop wt ws inc n i g =
        some ((List.range n).map (fun k => wtRead wt (phaseSeq ws inc i k)),
          phaseSeq ws inc i n)
  | 0, i => ⟨0, fun g _ => by simp [performLoop, phaseSeq]⟩
  | n + 1, i => by
      obtain ⟨f1, h1⟩ := wrapPhase_spec ws hws (i + inc)
      obtain ⟨f2, h2⟩ := performLoop_spec wt ws inc hws n ((i + inc) % ws)
      refine ⟨max f1 f2, fun g hg => ?_⟩
      have e1 : performLoop wt ws inc (n + 1) i g =
          (wrapPhase ws (i + inc) g).bind (fun i2 =>
            (performLoop wt ws inc n i2 g).map (fun r => (wtRead wt i :: r.1, r.2))) := rfl
      rw [e1, h1 g (le_trans (le_max_left _ _) hg)]
      simp only [Option.some_bind]
      rw [h2 g (le_trans (le_max_right _ _) hg)]
      simp only [Option.map_some']
      have htail : List.map (fun k => wtRead wt (phaseSeq ws inc ((i + inc) % ws) k))
          (List.range n) =
          List.map ((fun k => wtRead wt (phaseSeq ws inc i k)) ∘ Nat.succ) (List.range n) := by
        apply List.map_congr_left
        intro k _
        show wtRead wt (phaseSeq ws inc ((i + inc) % ws) k) =
          wtRead wt (phaseSeq ws inc i (k + 1))
        rw [phaseSeq_shift]
      congr 1
      rw [List.range_succ_eq_map, List.map_cons, List.map_map, htail]
      exact Prod.ext_iff.mpr ⟨rfl, phaseSeq_shift ws inc i n⟩

/-- Claim C6: `randwave_perform` emits `wavetable[phase]` for each of the
`blockSize` samples and then advances the phase by the increment with modular
reduction into `[0, tableSize)`; the advanced phase is never negative and
never `≥ tableSize` (for any increment, positive or negative); in particular
with `tableSize = 100`, increment `30`, starting phase `90`, after one sample
the phase is `20`. -/
theorem perform_phase_wraparound (wt : List (Option ℝ)) (ws inc i0 : ℤ) (n : ℕ)
    (hws : 1 ≤ ws) :
    (∃ f, ∀ g, f ≤ g → performLoop wt ws inc n i0 g =
      some ((List.range n).map (fun k => wtRead wt (phaseSeq ws inc i0 k)),
        phaseSeq ws inc i0 n)) ∧
    (∀ k : ℕ, 0 ≤ phaseSeq ws inc i0 (k + 1) ∧ phaseSeq ws inc i0 (k + 1) < ws) ∧
    phaseSeq 100 30 90 1 = 20 :=
  ⟨performLoop_spec wt ws inc hws n i0,
    fun k => phaseSeq_bounds ws inc i0 hws k, by decide⟩

/-- Witness for C6 at the spec's concrete scenario (`tableSize = 100`,
increment `30`, phase `90`, one sample). -/
theorem perform_phase_wraparound_witness :
    ((1 : ℤ) ≤ 100) ∧
    ((∃ f, ∀ g, f ≤ g → performLoop [] 100 30 1 90 g =
      some ((List.range 1).map (fun k => wtRead [] (phaseSeq 100 30 90 k)),
        phaseSeq 100 30 90 1)) ∧
    (∀ k : ℕ, 0 ≤ phaseSeq 100 30 90 (k + 1) ∧ phaseSeq 100 30 90 (k + 1) < 100) ∧
    phaseSeq 100 30 90 1 = 20) :=
  ⟨by decide, perform_phase_wraparound [] 100 30 90 1 (by decide)⟩

/-- Claim C7: the per-sample increment is `1 * ceil(tableSize / blockSize)`
for every emitted sample, and the frequency control buffer is never read: two
calls differing only in the frequency buffer return identical output and
identical final state. -/
theorem perform_frequency_inert (x : t_randwave) (f1 f2 : List ℚ) (n fuel : ℕ) :
    randwave_perform x f1 n fuel = randwave_perform x f2 n fuel ∧
    randwave_perform x f1 n fuel =
      (performLoop x.wavetable x.wavetable_size
        (1 * Int.ceil ((x.wavetable_size : ℚ) / (n : ℚ))) n x.phase fuel).map
        (fun r => (r.1, { x with phase := r.2 })) :=
  ⟨rfl, rfl⟩

/-- With `wavetable_size = 0` the subtracting loop never exits on nonnegative
input: it subtracts `0` forever. -/
lemma subLoop_zero_none : ∀ (f : ℕ) (i : ℤ), 0 ≤ i → subLoop 0 i f = none
  | 0, i, h => by simp [subLoop, h]
  | f + 1, i, h => by
      have hstep : subLoop 0 i (f + 1) = subLoop 0 (i - 0) f := by
        simp [subLoop, h]
      rw [hstep]
      have h0 : i - 0 = i := by ring
      rw [h0]
      exact subLoop_zero_none f i h

/-- With `wavetable_size = 0` the adding loop never exits on negative input:
it adds `0` forever. -/
lemma addLoop_zero_none : ∀ (f : ℕ) (i : ℤ), i < 0 → addLoop 0 i f = none
  | 0, i, h => by simp [addLoop, h]
  | f + 1, i, h => by
      have hstep : addLoop 0 i (f + 1) = addLoop 0 (i + 0) f := by
        simp [addLoop, h]
      rw [hstep]
      have h0 : i + 0 = i := by ring
      rw [h0]
      exact addLoop_zero_none f i h

/-- With `wavetable_size = 0` the wraparound adjustment diverges for every
index and every fuel bound. -/
lemma wrapPhase_zero_none (i : ℤ) (f : ℕ) : wrapPhase 0 i f = none := by
  rcases le_or_lt 0 i with h | h
  · unfold wrapPhase
    rw [subLoop_zero_none f i h]
    rfl
  · unfold wrapPhase
    rw [subLoop_of_lt h f]
    simp only [Option.some_bind]
    exact addLoop_zero_none f i h

/-- Claim C10: for `blockSize ≥ 1`, `randwave_perform` terminates (some fuel
makes every wraparound loop exit) whenever `wavetable_size ≥ 1`; for
`wavetable_size = 0` it diverges: no fuel bound suffices. -/
theorem perform_termination (x : t_randwave) (freq : List ℚ) (n : ℕ) (hn : 1 ≤ n) :
    (1 ≤ x.wavetable_size →
      ∃ fuel out y, randwave_perform x freq n fuel = some (out, y)) ∧
    (x.wavetable_size = 0 → ∀ fuel, randwave_perform x freq n fuel = none) := by
  constructor
  · intro hws
    obtain ⟨f, hf⟩ := performLoop_spec x.wavetable x.wavetable_size
      (1 * Int.ceil ((x.wavetable_size : ℚ) / (n : ℚ))) hws n x.phase
    have heq : randwave_perform x freq n f =
        (performLoop x.wavetable x.wavetable_size
          (1 * Int.ceil ((x.wavetable_size : ℚ) / (n : ℚ))) n x.phase f).map
          (fun r => (r.1, { x with phase := r.2 })) := rfl
    rw [hf f le_rfl] at heq
    simp only [Option.map_some'] at heq
    exact ⟨f, _, _, heq⟩
  · intro hws fuel
    obtain ⟨m, rfl⟩ : ∃ m, n = m + 1 := ⟨n - 1, by omega⟩
    have heq : randwave_perform x freq (m + 1) fuel =
        (performLoop x.wavetable x.wavetable_size
          (1 * Int.ceil ((x.wavetable_size : ℚ) / ((m + 1 : ℕ) : ℚ))) (m + 1) x.phase fuel).map
          (fun r => (r.1, { x with phase := r.2 })) := rfl
    have e1 : performLoop x.wavetable x.wavetable_size
        (1 * Int.ceil ((x.wavetable_size : ℚ) / ((m + 1 : ℕ) : ℚ))) (m + 1) x.phase fuel =
        (wrapPhase x.wavetable_size
          (x.phase + 1 * Int.ceil ((x.wavetable_size : ℚ) / ((m + 1 : ℕ) : ℚ))) fuel).bind
          (fun i2 => (performLoop x.wavetable x.wavetable_size
            (1 * Int.ceil ((x.wavetable_size : ℚ) / ((m + 1 : ℕ) : ℚ))) m i2 fuel).map
            (fun r => (wtRead x.wavetable x.phase :: r.1, r.2))) := rfl
    rw [heq, e1, hws, wrapPhase_zero_none]
    rfl

/-- Witness for C10 at a concrete object state (table size 2048, one-sample
block). -/
theorem perform_termination_witness :
    1 ≤ 1 ∧
    ((1 ≤ stStale.wavetable_size →
      ∃ fuel out y, randwave_perform stStale [] 1 fuel = some (out, y)) ∧
    (stStale.wavetable_size = 0 → ∀ fuel, randwave_perform stStale [] 1 fuel = none)) :=
  ⟨by decide, perform_termination stStale [] 1 (by decide)⟩
